import Mathlib

/-!
# KinectAnimationStudio: the key-dropping pass of `FBXTransmitter`

A shallow embedding of `FBXStreaming/main/FBXTransmitter.cpp`:

* `dropKeys` (lines 247-359): the translation loop, the rotation loop and the
  recursion into the children of the node;
* `transmit` (lines 68-150) and `startServer` (lines 155-183): the control flow
  of the driver around the server-mode flag `p_serverMode`.

Animation curves are lists of keys.  `rand()` is a sequence `rnd : Nat → Nat`
read through a cursor, so that `rand() % 10` is `rnd c % 10` and every call
advances the cursor by one.  A call through a null pointer stops the run; the
run then carries the state reached so far and `faulted = true`.
-/

namespace FBXTransmitter

/-! ## Data model -/

/-- One key of an animation curve: its time (an `FbxTime` tick count) and its
value (the bit pattern of the `float` the key stores; the code below only
moves keys around and never computes with the value). -/
structure Key where
  time : Int
  value : Nat
deriving DecidableEq, Repr

/-- The keys of an `FbxAnimCurve`, in index order. -/
abbrev Curve := List Key

/-- The call `FbxAnimCurve::KeyGetCount`: the number of keys. -/
def KeyGetCount (cv : Curve) : Nat := cv.length

/-- The call `FbxAnimCurve::KeyRemove(j)`: the key at index `j` is removed and the keys
after it move down by one; with no key at index `j` the call gives `false`
and the curve is left as it is. -/
def KeyRemove (cv : Curve) (j : Nat) : Curve := cv.eraseIdx j

/-- The six curves `dropKeys` fetches from a node on the current animation
layer; `none` is the null pointer `GetCurve` gives for a channel that has no
curve. -/
structure Channels where
  transXCurve : Option Curve
  transYCurve : Option Curve
  transZCurve : Option Curve
  rotXCurve : Option Curve
  rotYCurve : Option Curve
  rotZCurve : Option Curve
deriving DecidableEq, Repr

/-- The type `FbxNodeAttribute::EType`, the values the driver can tell apart. -/
inductive EType where
  | eSkeleton
  | eMarker
  | eOther
deriving DecidableEq, Repr

/-- An `FbxNode`: its name, the type of its node attribute (`none` when
`GetNodeAttribute()` is null), its curves and its children in child-index
order. -/
inductive FbxNode where
  | mk (name : String) (attr : Option EType) (curves : Channels)
      (children : List FbxNode)

/-- Name of a node. -/
def FbxNode.GetName : FbxNode → String
  | .mk n _ _ _ => n

/-- Attribute type of a node, `none` for a node without attribute. -/
def FbxNode.attr : FbxNode → Option EType
  | .mk _ a _ _ => a

/-- Curves of a node. -/
def FbxNode.curves : FbxNode → Channels
  | .mk _ _ c _ => c

/-- Children of a node. -/
def FbxNode.children : FbxNode → List FbxNode
  | .mk _ _ _ k => k

/-- Outcome of running a piece of the code: the state it reached, the cursor
into the `rand()` sequence, and whether the run stopped at a call through a
null pointer. -/
structure Run (α : Type) where
  state : α
  cursor : Nat
  faulted : Bool

/-! ## `dropKeys` -/

/-- The constant of `int lossRate = 9;` (line 250). -/
def lossRate : Nat := 9

/-- The count `translationKeyCount` (lines 262-266): the key count of the X curve when
that curve exists and has more than one key, else 0. -/
def translationKeyCount (ch : Channels) : Nat :=
  match ch.transXCurve with
  | some x => if KeyGetCount x > 1 then KeyGetCount x else 0
  | none => 0

/-- One turn of the translation loop at index `j` (lines 270-296) when the
draw is below `lossRate`: `KeyRemove(j)` on each of the three curves that
exists. -/
def dropTranslationKey (ch : Channels) (j : Nat) : Channels :=
  { ch with
    transXCurve := ch.transXCurve.map (fun cv => KeyRemove cv j)
    transYCurve := ch.transYCurve.map (fun cv => KeyRemove cv j)
    transZCurve := ch.transZCurve.map (fun cv => KeyRemove cv j) }

/-- The translation loop `for (int j = ...; j < translationKeyCount; j++)`
(lines 269-297) with `todo` turns left, the next one at index `j`. -/
def translationLoop (rnd : Nat → Nat) : Nat → Nat → Nat → Channels → Channels × Nat
  | 0, _, c, ch => (ch, c)
  | todo + 1, j, c, ch =>
    let random := rnd c % 10
    if random < lossRate then
      translationLoop rnd todo (j + 1) (c + 1) (dropTranslationKey ch j)
    else
      translationLoop rnd todo (j + 1) (c + 1) ch

/-- Lines 257-297: the translation pass on one node. -/
def translationPass (rnd : Nat → Nat) (c : Nat) (ch : Channels) : Channels × Nat :=
  translationLoop rnd (translationKeyCount ch - 1) 1 c ch

/-- The count `rotationKeyCount` (lines 306-309): the key count of the X curve when
that curve exists, else 0. -/
def rotationKeyCount (ch : Channels) : Nat :=
  match ch.rotXCurve with
  | some x => KeyGetCount x
  | none => 0

/-- One turn of the rotation loop at index `j` (lines 313-340) when the draw
is below `lossRate`.  The X curve is guarded by `rotXCurve`, the Z curve by
`rotZCurve`, and the Y curve by `transYCurve` (line 327): with a translation
Y curve and no rotation Y curve, line 328 calls through the null `rotYCurve`
after the X key is gone and before the Z curve is reached. -/
def dropRotationKey (ch : Channels) (j : Nat) : Channels × Bool :=
  let ch1 := { ch with rotXCurve := ch.rotXCurve.map (fun cv => KeyRemove cv j) }
  match ch1.transYCurve with
  | some _ =>
    match ch1.rotYCurve with
    | none => (ch1, true)
    | some y =>
      ({ ch1 with
          rotYCurve := some (KeyRemove y j)
          rotZCurve := ch1.rotZCurve.map (fun cv => KeyRemove cv j) }, false)
  | none =>
    ({ ch1 with rotZCurve := ch1.rotZCurve.map (fun cv => KeyRemove cv j) }, false)

/-- The rotation loop `for (int j = ...; j < rotationKeyCount; j++)`
(lines 312-341) with `todo` turns left, the next one at index `j`. -/
def rotationLoop (rnd : Nat → Nat) : Nat → Nat → Nat → Channels → Run Channels
  | 0, _, c, ch => ⟨ch, c, false⟩
  | todo + 1, j, c, ch =>
    let random := rnd c % 10
    if random < lossRate then
      match dropRotationKey ch j with
      | (ch1, true) => ⟨ch1, c + 1, true⟩
      | (ch1, false) => rotationLoop rnd todo (j + 1) (c + 1) ch1
    else
      rotationLoop rnd todo (j + 1) (c + 1) ch

/-- Lines 300-341: the rotation pass on one node. -/
def rotationPass (rnd : Nat → Nat) (c : Nat) (ch : Channels) : Run Channels :=
  rotationLoop rnd (rotationKeyCount ch - 1) 1 c ch

/-- Lines 247-341: what `dropKeys` does to the curves of `curNode` itself,
the translation pass and then the rotation pass. -/
def dropKeysNode (rnd : Nat → Nat) (c : Nat) (ch : Channels) : Run Channels :=
  let t := translationPass rnd c ch
  rotationPass rnd t.2 t.1

mutual
/-- The method `FBXTransmitter::dropKeys` (lines 247-359): the two passes on `curNode`,
then `dropKeys` on each child in child-index order. -/
def dropKeys (rnd : Nat → Nat) (c : Nat) : FbxNode → Run FbxNode
  | .mk name attr ch kids =>
    let r := dropKeysNode rnd c ch
    if r.faulted then
      ⟨.mk name attr r.state kids, r.cursor, true⟩
    else
      let rk := dropKeysChildren rnd r.cursor kids
      ⟨.mk name attr r.state rk.state, rk.cursor, rk.faulted⟩
/-- The loop over the children (lines 345-356). -/
def dropKeysChildren (rnd : Nat → Nat) (c : Nat) : List FbxNode → Run (List FbxNode)
  | [] => ⟨[], c, false⟩
  | k :: ks =>
    let r := dropKeys rnd c k
    if r.faulted then
      ⟨r.state :: ks, r.cursor, true⟩
    else
      let rs := dropKeysChildren rnd r.cursor ks
      ⟨r.state :: rs.state, rs.cursor, rs.faulted⟩
end

/-! ## `transmit` and `startServer` -/

/-- The scene `LoadScene` fills: the children of its root node, in child-index
order. -/
structure FbxScene where
  rootChildren : List FbxNode

/-- What a run of `transmit` does that can be seen from outside, in order. -/
inductive Event where
  /-- Line 76: the warning that client mode is disabled. -/
  | warnServerMode
  /-- Lines 88-90: the scene could not be loaded. -/
  | loadFailed
  /-- Line 93: the scene is loaded. -/
  | loaded
  /-- Lines 113-133 ran for the root child of this index: converted to
  markers, filtered, and converted back to a skeleton. -/
  | converted (i : Nat)
  /-- Line 136: `dropKeys` returned for the root child of this index. -/
  | degraded (i : Nat)
  /-- Line 107 called `GetAttributeType` through the null attribute of the
  root child of this index. -/
  | nullAttribute (i : Nat)
  /-- Lines 142-147: `SaveScene` was called, with this result. -/
  | saved (ok : Bool)
deriving DecidableEq, Repr

/-- The loop over the children of the scene root (lines 99-138), with `todo`
turns left, the next one at child index `i`.  `convert` is the chain of
lines 113-133 (it lives in `FBXJointConverter`) that gives the skeleton
`skel2` for a skeleton root.  The result is the events and whether the run
stopped at a call through a null pointer. -/
def transmitLoop (convert : FbxNode → FbxNode) (rnd : Nat → Nat) (lScene : FbxScene) :
    Nat → Nat → Nat → List Event × Bool
  | 0, _, _ => ([], false)
  | todo + 1, i, c =>
    match lScene.rootChildren[i]? with
    | none => transmitLoop convert rnd lScene todo (i + 1) c
    | some pNode =>
      match pNode.attr with
      | none => ([Event.nullAttribute i], true)
      | some pNodeAttType =>
        if pNodeAttType ≠ EType.eSkeleton then
          transmitLoop convert rnd lScene todo (i + 1) c
        else
          let skel2 := convert pNode
          let r := dropKeys rnd c skel2
          if r.faulted then
            ([Event.converted i], true)
          else
            let rest := transmitLoop convert rnd lScene todo (i + 1) r.cursor
            (Event.converted i :: Event.degraded i :: rest.1, rest.2)

/-- The members of an `FBXTransmitter` that the driver reads and writes. -/
structure Transmitter where
  p_serverMode : Bool
  p_transmitterPort : Nat

/-- The method `FBXTransmitter::transmit` (lines 68-150).  `LoadScene` is
the scene the loader gives for the input file (`none` when loading fails),
`SaveScene` the result the writer will give, and `rnd` the sequence `rand()`
yields after `srand(1000)`. -/
def transmit (convert : FbxNode → FbxNode) (rnd : Nat → Nat) (self : Transmitter)
    (LoadScene : Option FbxScene) (SaveScene : Bool) : List Event :=
  if self.p_serverMode then
    [Event.warnServerMode]
  else
    match LoadScene with
    | none => [Event.loadFailed]
    | some lScene =>
      let childCount := lScene.rootChildren.length
      let r := transmitLoop convert rnd lScene childCount 0 0
      if r.2 then
        Event.loaded :: r.1
      else
        Event.loaded :: (r.1 ++ [Event.saved SaveScene])

/-- The method `FBXTransmitter::startServer` (lines 155-183): `p_serverMode`
is set on entry (line 161), cleared again when `createDefaultListeningSocket`
gives `INVALID_SOCKET` (lines 164-167), and left as it is whatever `accept`
gives (lines 174-180). -/
def startServer (listenSocketValid clientSocketValid : Bool) (self : Transmitter) :
    Transmitter :=
  let self1 := { self with p_serverMode := true }
  if !listenSocketValid then
    { self1 with p_serverMode := false }
  else if !clientSocketValid then
    self1
  else
    self1

/-- A call on one `FBXTransmitter`. -/
inductive Call where
  | startServer (listenSocketValid clientSocketValid : Bool)
  | transmit (LoadScene : Option FbxScene) (SaveScene : Bool)

/-- Whether a call is a call of `transmit`. -/
def Call.isTransmit : Call → Bool
  | Call.startServer _ _ => false
  | Call.transmit _ _ => true

/-- Whether a call is a call of `startServer` that fails to create its
listening socket. -/
def Call.listenFails : Call → Bool
  | Call.startServer l _ => !l
  | Call.transmit _ _ => false

/-- A sequence of calls on one transmitter: the events of each `transmit`
call, in call order. -/
def runCalls (convert : FbxNode → FbxNode) (rnd : Nat → Nat) :
    Transmitter → List Call → List (List Event)
  | _, [] => []
  | self, Call.startServer l a :: rest =>
    runCalls convert rnd (startServer l a self) rest
  | self, Call.transmit ld sv :: rest =>
    transmit convert rnd self ld sv :: runCalls convert rnd self rest

/-! ## Vocabulary of the properties -/

/-- The six channels of a node. -/
inductive Chan where
  | transX
  | transY
  | transZ
  | rotX
  | rotY
  | rotZ
deriving DecidableEq, Repr

/-- The curve of a channel. -/
def Channels.get (ch : Channels) : Chan → Option Curve
  | Chan.transX => ch.transXCurve
  | Chan.transY => ch.transYCurve
  | Chan.transZ => ch.transZCurve
  | Chan.rotX => ch.rotXCurve
  | Chan.rotY => ch.rotYCurve
  | Chan.rotZ => ch.rotZCurve

/-- The draw `rand() % 10` of the turn at index `j` (counted from 1) of a loop
whose first turn reads the sequence at cursor `c`. -/
def drawAt (rnd : Nat → Nat) (c j : Nat) : Nat := rnd (c + (j - 1)) % 10

/-- The loss pass in the words of the specification: with `N` the key count
before the loop, visit `j = 1, 2, ..., N - 1` in increasing order and erase the
key at index `j` of the live list exactly when the draw `d j` is below 9. -/
def visitAndErase (d : Nat → Nat) (keys : Curve) : Curve :=
  (List.range' 1 (keys.length - 1)).foldl
    (fun live j => if d j < 9 then live.eraseIdx j else live) keys

/-- What the loop `for j ...: if (rand() % 10 < lossRate) KeyRemove(j)` does to
one curve: `todo` turns, the next one at index `j`, reading draws from cursor
`c`. -/
def eraseLoop (rnd : Nat → Nat) : Nat → Nat → Nat → Curve → Curve
  | 0, _, _, cv => cv
  | todo + 1, j, c, cv =>
    eraseLoop rnd todo (j + 1) (c + 1) (if rnd c % 10 < lossRate then KeyRemove cv j else cv)

/-- The loop seen from the index it is about to visit: `thin` is what `todo`
turns make of the keys from that index on.  A removed key gives its place to
its successor, which the next turn then steps over. -/
def thin (rnd : Nat → Nat) : Nat → Nat → List Key → List Key
  | 0, _, s => s
  | _ + 1, _, [] => []
  | todo + 1, c, x :: s =>
    if rnd c % 10 < lossRate then
      match s with
      | [] => []
      | y :: s1 => y :: thin rnd todo (c + 1) s1
    else x :: thin rnd todo (c + 1) s

/-- The keys of `keys` whose original index is not marked `removed`, in order;
`i` is the original index of the head of `keys`. -/
def survivors (removed : Nat → Bool) : Nat → List Key → List Key
  | _, [] => []
  | i, x :: xs =>
    if removed i then survivors removed (i + 1) xs else x :: survivors removed (i + 1) xs

/-- Bounded loss between the keys of a channel before (`keys`) and after
(`keys1`): the keys gone are those of a set of original indices that has no
index 0 and no two neighbours, they are at most half of the keys (rounded
down), and at least half of the keys (rounded up) are left. -/
def BoundedLoss (keys keys1 : Curve) : Prop :=
  (∃ removed : Nat → Bool,
      removed 0 = false ∧
      (∀ m, removed m = true → m < keys.length) ∧
      (∀ m, removed m = true → removed (m + 1) = false) ∧
      keys1 = survivors removed 0 keys) ∧
  keys.length - keys1.length ≤ keys.length / 2 ∧
  (keys.length + 1) / 2 ≤ keys1.length

/-- A relation between the keys of a curve before and after, lifted to a
channel that may have no curve: a channel without curve stays without curve. -/
def CurveRel (P : Curve → Curve → Prop) : Option Curve → Option Curve → Prop
  | none, none => True
  | some a, some b => P a b
  | _, _ => False

/-- The relation `P` holds between the curves of each of the six channels. -/
structure Channels.Rel (P : Curve → Curve → Prop) (a b : Channels) : Prop where
  transX : CurveRel P a.transXCurve b.transXCurve
  transY : CurveRel P a.transYCurve b.transYCurve
  transZ : CurveRel P a.transZCurve b.transZCurve
  rotX : CurveRel P a.rotXCurve b.rotXCurve
  rotY : CurveRel P a.rotYCurve b.rotYCurve
  rotZ : CurveRel P a.rotZCurve b.rotZCurve

/-- A relation on curves that every `KeyRemove` at an index other than 0
respects, and that composes. -/
structure StepClosed (P : Curve → Curve → Prop) : Prop where
  refl : ∀ a, P a a
  trans : ∀ a b c, P a b → P b c → P a c
  step : ∀ a j, 1 ≤ j → P a (KeyRemove a j)

/-- Strictly increasing key times. -/
def TimeOrdered (keys : Curve) : Prop := keys.Pairwise (fun a b => a.time < b.time)

mutual
/-- The curves of the nodes of a subtree in depth-first pre-order: the node,
then the subtree of each child in child-index order. -/
def FbxNode.preorder : FbxNode → List Channels
  | .mk _ _ ch kids => ch :: preorderChildren kids
/-- The pre-order of a list of subtrees, one after the other. -/
def preorderChildren : List FbxNode → List Channels
  | [] => []
  | k :: ks => k.preorder ++ preorderChildren ks
end

mutual
/-- The names, attributes and parent-child structure of a subtree: the tree
with the curves of every node taken away. -/
def FbxNode.shape : FbxNode → FbxNode
  | .mk name attr _ kids =>
    .mk name attr ⟨none, none, none, none, none, none⟩ (shapeChildren kids)
/-- The shapes of a list of subtrees. -/
def shapeChildren : List FbxNode → List FbxNode
  | [] => []
  | k :: ks => k.shape :: shapeChildren ks
end

/-- The loss pass of lines 247-341 applied once to each entry of a list of
curves, in list order, each pass reading the draws from where the one before
stopped; a pass that stops at a null pointer ends the run and leaves the
entries after it as they are. -/
def passEach (rnd : Nat → Nat) : Nat → List Channels → Run (List Channels)
  | c, [] => ⟨[], c, false⟩
  | c, ch :: rest =>
    let r := dropKeysNode rnd c ch
    if r.faulted then
      ⟨r.state :: rest, r.cursor, true⟩
    else
      let rs := passEach rnd r.cursor rest
      ⟨r.state :: rs.state, rs.cursor, rs.faulted⟩

/-! ## Sample inputs -/

/-- The key at time `i`, with value bits `7 * i`. -/
def keyAt (i : Nat) : Key := ⟨i, 7 * i⟩

/-- A curve of `n` keys at times `0, 1, ..., n - 1`. -/
def ramp (n : Nat) : Curve := (List.range n).map keyAt

/-- A `rand()` sequence whose every draw is 0, below `lossRate`. -/
def lowDraws : Nat → Nat := fun _ => 0

/-- A `rand()` sequence with draws `0, 9, 0, 0, 9, 0, ...`: every third draw,
from the second on, is 9 and the others are 0. -/
def mixedDraws : Nat → Nat := fun i => if i % 3 = 1 then 9 else 0

/-- Curves of a node with all six channels: five translation keys on X, two
on Y, one on Z, four rotation keys on each axis. -/
def fullCurves : Channels :=
  { transXCurve := some (ramp 5)
    transYCurve := some (ramp 2)
    transZCurve := some (ramp 1)
    rotXCurve := some (ramp 4)
    rotYCurve := some (ramp 4)
    rotZCurve := some (ramp 4) }

/-- A leaf node with the curves `fullCurves`. -/
def fullNode : FbxNode := FbxNode.mk "Bip02" (some EType.eSkeleton) fullCurves []

/-- Curves with two rotation keys on each axis, and a translation Y curve
(of one key) or none. -/
def rotCurves (transY : Option Curve) : Channels :=
  { transXCurve := none
    transYCurve := transY
    transZCurve := none
    rotXCurve := some (ramp 2)
    rotYCurve := some (ramp 2)
    rotZCurve := some (ramp 2) }

/-- Curves with a translation Y curve, a rotation X curve of two keys and no
rotation Y curve. -/
def noRotYCurves : Channels :=
  { transXCurve := none
    transYCurve := some (ramp 1)
    transZCurve := none
    rotXCurve := some (ramp 2)
    rotYCurve := none
    rotZCurve := some (ramp 2) }

/-- Curves with a translation Y curve of one key, rotation X and Z curves of
`n` keys, and the given rotation Y curve (`none` for a node without one). -/
def stopCurves (n : Nat) (rotY : Option Curve) : Channels :=
  { transXCurve := none
    transYCurve := some (ramp 1)
    transZCurve := none
    rotXCurve := some (ramp n)
    rotYCurve := rotY
    rotZCurve := some (ramp n) }

/-- A leaf node with the given curves. -/
def leaf (curves : Channels) : FbxNode :=
  FbxNode.mk "Bip02" (some EType.eSkeleton) curves []

/-- A root with the given curves and one child with the curves
`rotCurves none`. -/
def pairTree (root : Channels) : FbxNode :=
  FbxNode.mk "Bip02" (some EType.eSkeleton) root
    [FbxNode.mk "Bip02 Pelvis" (some EType.eSkeleton) (rotCurves none) []]

/-- A scene whose root has two children: a node with the given attribute
(`none` for a node without node attribute), then a skeleton root. -/
def sceneWith (attr : Option EType) : FbxScene :=
  { rootChildren := [FbxNode.mk "Group" attr (rotCurves none) [], fullNode] }

/-- A stand-in for the conversion chain of lines 113-133: the skeleton it
gives is the skeleton root it was given. -/
def sameSkeleton : FbxNode → FbxNode := fun pNode => pNode

/-- A transmitter whose flag `p_serverMode` has the given value. -/
def transmitterWith (serverMode : Bool) : Transmitter :=
  { p_serverMode := serverMode, p_transmitterPort := 27015 }

/-- A transmitter in client mode. -/
def clientMode : Transmitter := transmitterWith false

/-! ## Lemmas on the loops -/

/-- The translation loop reads one draw per turn. -/
theorem translationLoop_cursor (rnd : Nat → Nat) (todo j c : Nat) (ch : Channels) :
    (translationLoop rnd todo j c ch).2 = c + todo := by
  induction todo generalizing j c ch with
  | zero => simp [translationLoop]
  | succ n ih =>
    simp only [translationLoop]
    split <;> rw [ih] <;> omega

/-- The translation loop runs `eraseLoop` on each translation curve, with the
same draws, and leaves the rotation curves alone. -/
theorem translationLoop_proj (rnd : Nat → Nat) (todo j c : Nat) (ch : Channels) :
    (translationLoop rnd todo j c ch).1 =
      { transXCurve := ch.transXCurve.map (eraseLoop rnd todo j c)
        transYCurve := ch.transYCurve.map (eraseLoop rnd todo j c)
        transZCurve := ch.transZCurve.map (eraseLoop rnd todo j c)
        rotXCurve := ch.rotXCurve
        rotYCurve := ch.rotYCurve
        rotZCurve := ch.rotZCurve } := by
  induction todo generalizing j c ch with
  | zero =>
    cases ch
    simp [translationLoop, eraseLoop]
  | succ n ih =>
    simp only [translationLoop]
    split
    · rename_i h
      rw [ih]
      simp [dropTranslationKey, eraseLoop, h, Option.map_map, Function.comp_def]
    · rename_i h
      rw [ih]
      simp [eraseLoop, h]

/-- A reflexive relation lifts to a reflexive relation on channels. -/
theorem curveRel_refl {P : Curve → Curve → Prop} (h : ∀ a, P a a) (o : Option Curve) :
    CurveRel P o o := by
  cases o <;> simp [CurveRel, h]

/-- A transitive relation lifts to a transitive relation on channels. -/
theorem curveRel_trans {P : Curve → Curve → Prop} (h : ∀ a b c, P a b → P b c → P a c)
    {x y z : Option Curve} (hxy : CurveRel P x y) (hyz : CurveRel P y z) : CurveRel P x z := by
  cases x <;> cases y <;> cases z <;> simp_all [CurveRel]
  exact h _ _ _ hxy hyz

/-- A change of the keys that respects `P` respects it on a channel. -/
theorem curveRel_map {P : Curve → Curve → Prop} (f : Curve → Curve) (h : ∀ a, P a (f a))
    (o : Option Curve) : CurveRel P o (o.map f) := by
  cases o <;> simp [CurveRel, h]

/-- Reflexivity on the six channels. -/
theorem channelsRel_refl {P : Curve → Curve → Prop} (h : ∀ a, P a a) (ch : Channels) :
    Channels.Rel P ch ch :=
  ⟨curveRel_refl h _, curveRel_refl h _, curveRel_refl h _, curveRel_refl h _,
    curveRel_refl h _, curveRel_refl h _⟩

/-- Transitivity on the six channels. -/
theorem channelsRel_trans {P : Curve → Curve → Prop} (h : ∀ a b c, P a b → P b c → P a c)
    {x y z : Channels} (hxy : Channels.Rel P x y) (hyz : Channels.Rel P y z) :
    Channels.Rel P x z :=
  ⟨curveRel_trans h hxy.transX hyz.transX, curveRel_trans h hxy.transY hyz.transY,
    curveRel_trans h hxy.transZ hyz.transZ, curveRel_trans h hxy.rotX hyz.rotX,
    curveRel_trans h hxy.rotY hyz.rotY, curveRel_trans h hxy.rotZ hyz.rotZ⟩

/-- One removal of the translation loop respects a step-closed relation. -/
theorem dropTranslationKey_rel {P : Curve → Curve → Prop} (hP : StepClosed P)
    (ch : Channels) (j : Nat) (hj : 1 ≤ j) : Channels.Rel P ch (dropTranslationKey ch j) := by
  have hm : ∀ o : Option Curve, CurveRel P o (o.map (fun cv => KeyRemove cv j)) :=
    fun o => curveRel_map _ (fun a => hP.step a j hj) o
  exact ⟨hm _, hm _, hm _, curveRel_refl hP.refl _, curveRel_refl hP.refl _,
    curveRel_refl hP.refl _⟩

/-- One removal of the rotation loop respects a step-closed relation, also
when it stops at the null rotation Y curve. -/
theorem dropRotationKey_rel {P : Curve → Curve → Prop} (hP : StepClosed P)
    (ch : Channels) (j : Nat) (hj : 1 ≤ j) : Channels.Rel P ch (dropRotationKey ch j).1 := by
  have hm : ∀ o : Option Curve, CurveRel P o (o.map (fun cv => KeyRemove cv j)) :=
    fun o => curveRel_map _ (fun a => hP.step a j hj) o
  have hr : ∀ o : Option Curve, CurveRel P o o := curveRel_refl hP.refl
  unfold dropRotationKey
  cases hty : ch.transYCurve with
  | none => exact ⟨hr _, by simp [hty, CurveRel], hr _, hm _, hr _, hm _⟩
  | some ty =>
    cases hry : ch.rotYCurve with
    | none => exact ⟨hr _, by simp [hty, CurveRel, hP.refl], hr _, hm _, by simp [hry, CurveRel], hr _⟩
    | some ry =>
      exact ⟨hr _, by simp [hty, CurveRel, hP.refl], hr _, hm _,
        by simpa [hry, CurveRel] using hP.step ry j hj, hm _⟩

/-- The translation loop respects a step-closed relation. -/
theorem translationLoop_rel {P : Curve → Curve → Prop} (hP : StepClosed P)
    (rnd : Nat → Nat) (todo j c : Nat) (ch : Channels) (hj : 1 ≤ j) :
    Channels.Rel P ch (translationLoop rnd todo j c ch).1 := by
  induction todo generalizing j c ch with
  | zero => exact channelsRel_refl hP.refl ch
  | succ n ih =>
    simp only [translationLoop]
    split
    · exact channelsRel_trans hP.trans (dropTranslationKey_rel hP ch j hj)
        (ih (j + 1) (c + 1) _ (by omega))
    · exact ih (j + 1) (c + 1) ch (by omega)

/-- The rotation loop respects a step-closed relation in every outcome. -/
theorem rotationLoop_rel {P : Curve → Curve → Prop} (hP : StepClosed P)
    (rnd : Nat → Nat) (todo j c : Nat) (ch : Channels) (hj : 1 ≤ j) :
    Channels.Rel P ch (rotationLoop rnd todo j c ch).state := by
  induction todo generalizing j c ch with
  | zero => exact channelsRel_refl hP.refl ch
  | succ n ih =>
    simp only [rotationLoop]
    split
    · have hd := dropRotationKey_rel hP ch j hj
      split
      · rename_i ch1 heq
        rw [heq] at hd
        exact hd
      · rename_i ch1 heq
        rw [heq] at hd
        exact channelsRel_trans hP.trans hd (ih (j + 1) (c + 1) ch1 (by omega))
    · exact ih (j + 1) (c + 1) ch (by omega)

/-- Both passes on a node respect a step-closed relation in every outcome. -/
theorem dropKeysNode_rel {P : Curve → Curve → Prop} (hP : StepClosed P)
    (rnd : Nat → Nat) (c : Nat) (ch : Channels) :
    Channels.Rel P ch (dropKeysNode rnd c ch).state :=
  channelsRel_trans hP.trans (translationLoop_rel hP rnd _ 1 c ch (Nat.le_refl 1))
    (rotationLoop_rel hP rnd _ 1 _ _ (Nat.le_refl 1))

/-- The loop on one curve is a fold over the visited indices. -/
theorem eraseLoop_eq_foldl (rnd : Nat → Nat) (d : Nat → Nat) (todo j c : Nat) (cv : Curve)
    (hd : ∀ i, j ≤ i → i < j + todo → d i = rnd (c + (i - j)) % 10) :
    eraseLoop rnd todo j c cv =
      (List.range' j todo).foldl (fun live i => if d i < 9 then live.eraseIdx i else live) cv := by
  induction todo generalizing j c cv with
  | zero => simp [eraseLoop]
  | succ n ih =>
    have h0 : d j = rnd c % 10 := by
      have := hd j (Nat.le_refl j) (by omega)
      simpa using this
    rw [List.range'_succ, List.foldl_cons, eraseLoop, h0]
    apply ih
    intro i hi1 hi2
    rw [hd i (by omega) (by omega)]
    congr 2
    omega

/-- The loop of a pass on its X curve is `visitAndErase` with the draws of the
pass. -/
theorem eraseLoop_eq_visitAndErase (rnd : Nat → Nat) (c : Nat) (cv : Curve) :
    eraseLoop rnd (cv.length - 1) 1 c cv = visitAndErase (drawAt rnd c) cv := by
  unfold visitAndErase
  apply eraseLoop_eq_foldl
  intro i _ _
  rfl

/-- Turns at indices past the end of the curve change nothing. -/
theorem eraseLoop_short (rnd : Nat → Nat) (todo j c : Nat) (cv : Curve) (h : cv.length ≤ j) :
    eraseLoop rnd todo j c cv = cv := by
  induction todo generalizing j c with
  | zero => rfl
  | succ n ih =>
    rw [eraseLoop, KeyRemove, List.eraseIdx_of_length_le h, ite_self]
    exact ih (j + 1) (c + 1) (by omega)

/-- The turns from index `j` on leave the first `j` keys alone and thin the
rest. -/
theorem eraseLoop_append (rnd : Nat → Nat) (todo j c : Nat) (p s : List Key)
    (hp : p.length = j) : eraseLoop rnd todo j c (p ++ s) = p ++ thin rnd todo c s := by
  induction todo generalizing j c p s with
  | zero => simp [eraseLoop, thin]
  | succ n ih =>
    cases s with
    | nil =>
      rw [eraseLoop_short _ _ _ _ _ (by simp [hp])]
      simp [thin]
    | cons x s =>
      rw [eraseLoop]
      simp only [thin]
      by_cases hlt : rnd c % 10 < lossRate
      · simp only [hlt, if_true]
        have he : KeyRemove (p ++ x :: s) j = p ++ s := by
          rw [KeyRemove, List.eraseIdx_append_of_length_le (by omega)]
          simp [hp]
        rw [he]
        cases s with
        | nil =>
          rw [eraseLoop_short _ _ _ _ _ (by simp [hp])]
        | cons y s1 =>
          have := ih (j + 1) (c + 1) (p ++ [y]) s1 (by simp [hp])
          simpa using this
      · simp only [hlt, if_false]
        have := ih (j + 1) (c + 1) (p ++ [x]) s (by simp [hp])
        simpa using this

/-- A pass keeps the key at index 0 and thins the keys after it. -/
theorem eraseLoop_cons (rnd : Nat → Nat) (todo c : Nat) (k0 : Key) (s : List Key) :
    eraseLoop rnd todo 1 c (k0 :: s) = k0 :: thin rnd todo c s := by
  simpa using eraseLoop_append rnd todo 1 c [k0] s rfl

/-- Only the marks from the index of the head on matter. -/
theorem survivors_congr (r1 r2 : Nat → Bool) (i : Nat) (s : List Key)
    (h : ∀ m, i ≤ m → r1 m = r2 m) : survivors r1 i s = survivors r2 i s := by
  induction s generalizing i with
  | nil => rfl
  | cons x xs ih =>
    simp only [survivors, h i (Nat.le_refl i)]
    rw [ih (i + 1) (fun m hm => h m (by omega))]

/-- Thinning leaves at least half of the keys, up to one. -/
theorem thin_length (rnd : Nat → Nat) (todo c : Nat) (s : List Key) :
    s.length ≤ 2 * (thin rnd todo c s).length + 1 := by
  induction todo generalizing c s with
  | zero => simp only [thin]; omega
  | succ n ih =>
    cases s with
    | nil => simp [thin]
    | cons x s =>
      simp only [thin]
      by_cases hlt : rnd c % 10 < lossRate
      · simp only [hlt, if_true]
        cases s with
        | nil => simp
        | cons y s1 =>
          have := ih (c + 1) s1
          simp only [List.length_cons]
          omega
      · simp only [hlt, if_false]
        have := ih (c + 1) s
        simp only [List.length_cons]
        omega

/-- With no index marked every key is left. -/
theorem survivors_none (i : Nat) (s : List Key) : survivors (fun _ => false) i s = s := by
  induction s generalizing i with
  | nil => rfl
  | cons x xs ih => simp [survivors, ih (i + 1)]

/-- Thinning removes the keys of a set of indices without two neighbours, and
the set is the same for all lists of one length. -/
theorem thin_survivors (rnd : Nat → Nat) (todo c n i : Nat) :
    ∃ removed : Nat → Bool,
      (∀ m, removed m = true → i ≤ m ∧ m < i + n) ∧
      (∀ m, removed m = true → removed (m + 1) = false) ∧
      ∀ s : List Key, s.length = n → thin rnd todo c s = survivors removed i s := by
  induction todo generalizing c n i with
  | zero =>
    refine ⟨fun _ => false, by simp, by simp, ?_⟩
    intro s _
    simp [thin, survivors_none]
  | succ t ih =>
    cases n with
    | zero =>
      refine ⟨fun _ => false, by simp, by simp, ?_⟩
      intro s hs
      have : s = [] := List.length_eq_zero.mp hs
      subst this
      simp [thin, survivors]
    | succ n =>
      by_cases hlt : rnd c % 10 < lossRate
      · cases n with
        | zero =>
          refine ⟨fun m => decide (m = i), ?_, ?_, ?_⟩
          · intro m hm
            simp only [decide_eq_true_eq] at hm
            subst hm
            omega
          · intro m hm
            simp only [decide_eq_true_eq] at hm
            subst hm
            simp
          · intro s hs
            match s, hs with
            | [x], _ => simp [thin, hlt, survivors]
        | succ n =>
          obtain ⟨r, hr1, hr2, hr3⟩ := ih (c + 1) n (i + 2)
          have hi1 : r (i + 1) = false := by
            cases hq : r (i + 1) with
            | false => rfl
            | true =>
              have := (hr1 _ hq).1
              omega
          refine ⟨fun m => decide (m = i) || r m, ?_, ?_, ?_⟩
          · intro m hm
            simp only [Bool.or_eq_true, decide_eq_true_eq] at hm
            rcases hm with hm | hm
            · subst hm
              omega
            · have := hr1 m hm
              omega
          · intro m hm
            simp only [Bool.or_eq_true, decide_eq_true_eq] at hm
            simp only [Bool.or_eq_false_iff, decide_eq_false_iff_not]
            rcases hm with hm | hm
            · subst hm
              exact ⟨by omega, hi1⟩
            · have := (hr1 m hm).1
              exact ⟨by omega, hr2 m hm⟩
          · intro s hs
            match s, hs with
            | x :: y :: s1, hs =>
              have hs1 : s1.length = n := by simpa using hs
              simp only [thin, hlt, if_true, survivors, decide_True, Bool.true_or]
              have hne : decide (i + 1 = i) = false := by simp
              simp only [hne, Bool.false_or, hi1, Bool.false_eq_true, if_false]
              rw [hr3 s1 hs1]
              congr 1
              apply survivors_congr
              intro m hm
              have : decide (m = i) = false := by
                simp only [decide_eq_false_iff_not]
                omega
              simp [this]
      · obtain ⟨r, hr1, hr2, hr3⟩ := ih (c + 1) n (i + 1)
        refine ⟨r, ?_, hr2, ?_⟩
        · intro m hm
          have := hr1 m hm
          omega
        · intro s hs
          match s, hs with
          | x :: s1, hs =>
            have hs1 : s1.length = n := by simpa using hs
            have hi0 : r i = false := by
              cases hq : r i with
              | false => rfl
              | true =>
                have := (hr1 _ hq).1
                omega
            simp [thin, hlt, survivors, hi0, hr3 s1 hs1]

/-- With every draw below `lossRate` thinning leaves every second key. -/
theorem thin_all_dropped (rnd : Nat → Nat) (todo c : Nat) (s : List Key)
    (hlen : s.length ≤ todo) (hall : ∀ i, i < todo → rnd (c + i) % 10 < lossRate) (m : Nat) :
    (thin rnd todo c s)[m]? = s[2 * m + 1]? := by
  induction todo generalizing c s m with
  | zero =>
    cases s with
    | nil => simp [thin]
    | cons x s => simp at hlen
  | succ n ih =>
    cases s with
    | nil => simp [thin]
    | cons x s =>
      have h0 : rnd c % 10 < lossRate := by simpa using hall 0 (by omega)
      simp only [thin, h0, if_true]
      cases s with
      | nil => simp
      | cons y s1 =>
        cases m with
        | zero => simp
        | succ m =>
          have := ih (c + 1) s1 (by simp only [List.length_cons] at hlen; omega)
            (fun i hi => by
              have := hall (i + 1) (by omega)
              rwa [show c + 1 + i = c + (i + 1) by omega]) m
          simp only [List.getElem?_cons_succ, this]
          rw [show 2 * (m + 1) = (2 * m + 1) + 1 by omega]
          simp only [List.getElem?_cons_succ]

/-- One removal of the rotation loop removes the key of the X curve. -/
theorem dropRotationKey_rotX (ch : Channels) (j : Nat) :
    (dropRotationKey ch j).1.rotXCurve = ch.rotXCurve.map (fun cv => KeyRemove cv j) := by
  unfold dropRotationKey
  cases ch.transYCurve <;> cases ch.rotYCurve <;> rfl

/-- One removal of the rotation loop leaves the translation curves alone. -/
theorem dropRotationKey_trans (ch : Channels) (j : Nat) :
    (dropRotationKey ch j).1.transXCurve = ch.transXCurve ∧
    (dropRotationKey ch j).1.transYCurve = ch.transYCurve ∧
    (dropRotationKey ch j).1.transZCurve = ch.transZCurve := by
  unfold dropRotationKey
  cases ch.transYCurve <;> cases ch.rotYCurve <;> exact ⟨rfl, rfl, rfl⟩

/-- One removal of the rotation loop that does not stop: X and Z lose the key,
and Y does when there is a translation Y curve. -/
theorem dropRotationKey_ok (ch : Channels) (j : Nat) (h : (dropRotationKey ch j).2 = false) :
    (dropRotationKey ch j).1 =
      { ch with
        rotXCurve := ch.rotXCurve.map (fun cv => KeyRemove cv j)
        rotYCurve := if ch.transYCurve.isSome then ch.rotYCurve.map (fun cv => KeyRemove cv j)
          else ch.rotYCurve
        rotZCurve := ch.rotZCurve.map (fun cv => KeyRemove cv j) } := by
  unfold dropRotationKey at h ⊢
  cases hty : ch.transYCurve <;> cases hry : ch.rotYCurve <;> simp_all

/-- The rotation loop leaves the translation curves alone. -/
theorem rotationLoop_trans (rnd : Nat → Nat) (todo j c : Nat) (ch : Channels) :
    (rotationLoop rnd todo j c ch).state.transXCurve = ch.transXCurve ∧
    (rotationLoop rnd todo j c ch).state.transYCurve = ch.transYCurve ∧
    (rotationLoop rnd todo j c ch).state.transZCurve = ch.transZCurve := by
  induction todo generalizing j c ch with
  | zero => exact ⟨rfl, rfl, rfl⟩
  | succ n ih =>
    simp only [rotationLoop]
    split
    · have hd := dropRotationKey_trans ch j
      split
      · rename_i ch1 heq
        rw [heq] at hd
        exact hd
      · rename_i ch1 heq
        rw [heq] at hd
        have := ih (j + 1) (c + 1) ch1
        exact ⟨this.1.trans hd.1, this.2.1.trans hd.2.1, this.2.2.trans hd.2.2⟩
    · exact ih (j + 1) (c + 1) ch

/-- A rotation loop that runs to its end: `eraseLoop` on X and Z (and on Y when
there is a translation Y curve), one draw per turn. -/
theorem rotationLoop_ok (rnd : Nat → Nat) (todo j c : Nat) (ch : Channels)
    (h : (rotationLoop rnd todo j c ch).faulted = false) :
    (rotationLoop rnd todo j c ch).state =
      { ch with
        rotXCurve := ch.rotXCurve.map (eraseLoop rnd todo j c)
        rotYCurve := if ch.transYCurve.isSome then ch.rotYCurve.map (eraseLoop rnd todo j c)
          else ch.rotYCurve
        rotZCurve := ch.rotZCurve.map (eraseLoop rnd todo j c) } ∧
    (rotationLoop rnd todo j c ch).cursor = c + todo := by
  induction todo generalizing j c ch with
  | zero =>
    cases ch
    simp [rotationLoop, eraseLoop]
  | succ n ih =>
    simp only [rotationLoop] at h ⊢
    by_cases hlt : rnd c % 10 < lossRate
    · simp only [hlt, if_true] at h ⊢
      cases hd : dropRotationKey ch j with
      | mk ch1 b =>
        cases b with
        | true => simp [hd] at h
        | false =>
          simp only [hd] at h ⊢
          have hok := dropRotationKey_ok ch j (by rw [hd])
          rw [hd] at hok
          simp only at hok
          obtain ⟨h1, h2⟩ := ih (j + 1) (c + 1) ch1 h
          refine ⟨?_, by omega⟩
          rw [h1, hok]
          cases hty : ch.transYCurve <;>
            simp [eraseLoop, hlt, Option.map_map, Function.comp_def]
    · simp only [hlt, if_false] at h ⊢
      obtain ⟨h1, h2⟩ := ih (j + 1) (c + 1) ch h
      refine ⟨?_, by omega⟩
      rw [h1]
      simp [eraseLoop, hlt]

/-- In every outcome the rotation X curve is `eraseLoop` over the turns that
ran. -/
theorem rotationLoop_rotX (rnd : Nat → Nat) (todo j c : Nat) (ch : Channels) :
    ∃ n, n ≤ todo ∧
      (rotationLoop rnd todo j c ch).state.rotXCurve = ch.rotXCurve.map (eraseLoop rnd n j c) := by
  induction todo generalizing j c ch with
  | zero => exact ⟨0, Nat.le_refl 0, by cases h : ch.rotXCurve <;> simp [rotationLoop, eraseLoop, h]⟩
  | succ n ih =>
    simp only [rotationLoop]
    by_cases hlt : rnd c % 10 < lossRate
    · simp only [hlt, if_true]
      have hx := dropRotationKey_rotX ch j
      cases hd : dropRotationKey ch j with
      | mk ch1 b =>
        rw [hd] at hx
        simp only at hx
        cases b with
        | true =>
          refine ⟨1, by omega, ?_⟩
          simp only [hx]
          cases ch.rotXCurve <;> simp [eraseLoop, hlt]
        | false =>
          obtain ⟨m, hm, he⟩ := ih (j + 1) (c + 1) ch1
          refine ⟨m + 1, by omega, ?_⟩
          simp only [he, hx]
          cases ch.rotXCurve <;> simp [eraseLoop, hlt]
    · simp only [hlt, if_false]
      obtain ⟨m, hm, he⟩ := ih (j + 1) (c + 1) ch
      refine ⟨m + 1, by omega, ?_⟩
      simp only [he]
      cases ch.rotXCurve <;> simp [eraseLoop, hlt]

/-! ## Lemmas on one node and on the root of a tree -/

/-- The relation on the six channels, channel by channel. -/
theorem channelsRel_get {P : Curve → Curve → Prop} {a b : Channels}
    (h : Channels.Rel P a b) (s : Chan) : CurveRel P (a.get s) (b.get s) := by
  cases s
  exacts [h.transX, h.transY, h.transZ, h.rotX, h.rotY, h.rotZ]

/-- The curves of the root after `dropKeys` are those the two passes give. -/
theorem dropKeys_curves (rnd : Nat → Nat) (c : Nat) (t : FbxNode) :
    (dropKeys rnd c t).state.curves = (dropKeysNode rnd c t.curves).state := by
  cases t with
  | mk name attr ch kids =>
    by_cases hf : (dropKeysNode rnd c ch).faulted = true <;>
      simp [dropKeys, FbxNode.curves, hf]

/-- A call that returns has run both passes of the root to their end. -/
theorem dropKeys_node_ok (rnd : Nat → Nat) (c : Nat) (t : FbxNode)
    (h : (dropKeys rnd c t).faulted = false) :
    (dropKeysNode rnd c t.curves).faulted = false := by
  cases t with
  | mk name attr ch kids =>
    simp only [dropKeys, FbxNode.curves] at h ⊢
    split at h
    · simp at h
    · rename_i hf
      simpa using hf

/-- The curves of the root before and after `dropKeys` are related by every
step-closed relation. -/
theorem dropKeys_rel {P : Curve → Curve → Prop} (hP : StepClosed P)
    (rnd : Nat → Nat) (c : Nat) (t : FbxNode) (s : Chan) :
    CurveRel P (t.curves.get s) ((dropKeys rnd c t).state.curves.get s) := by
  rw [dropKeys_curves]
  exact channelsRel_get (dropKeysNode_rel hP rnd c t.curves) s

/-- Being a sublist is step-closed. -/
theorem stepClosed_sublist : StepClosed (fun a b => b.Sublist a) where
  refl := fun a => List.Sublist.refl a
  trans := fun _ _ _ hab hbc => hbc.trans hab
  step := fun a j _ => List.eraseIdx_sublist a j

/-- Leaving curves of fewer than two keys alone is step-closed. -/
theorem stepClosed_static : StepClosed (fun a b => a.length < 2 → b = a) where
  refl := fun _ _ => rfl
  trans := fun a b c hab hbc ha => by
    have hb := hab ha
    subst hb
    exact hbc ha
  step := fun a j hj ha => List.eraseIdx_of_length_le (by omega)

/-- Not growing and keeping the key at index 0 is step-closed. -/
theorem stepClosed_head : StepClosed (fun a b => b.length ≤ a.length ∧ b[0]? = a[0]?) where
  refl := fun _ => ⟨Nat.le_refl _, rfl⟩
  trans := fun _ _ _ hab hbc => ⟨Nat.le_trans hbc.1 hab.1, hbc.2.trans hab.2⟩
  step := fun a j hj =>
    ⟨List.length_eraseIdx_le a j, List.getElem?_eraseIdx_of_lt a j 0 (by omega)⟩

/-- The loop bound of the translation pass for an X curve of two keys or
more. -/
theorem translationKeyCount_of_keys (ch : Channels) (keys : Curve)
    (h : ch.transXCurve = some keys) (hN : 2 ≤ keys.length) :
    translationKeyCount ch = keys.length := by
  simp only [translationKeyCount, h, KeyGetCount]
  rw [if_pos (by omega)]

/-- The loop bound of the rotation pass. -/
theorem rotationKeyCount_of_keys (ch : Channels) (keys : Curve)
    (h : ch.rotXCurve = some keys) : rotationKeyCount ch = keys.length := by
  simp only [rotationKeyCount, h, KeyGetCount]

/-- The translation pass reads `translationKeyCount - 1` draws. -/
theorem translationPass_cursor (rnd : Nat → Nat) (c : Nat) (ch : Channels) :
    (translationPass rnd c ch).2 = c + (translationKeyCount ch - 1) :=
  translationLoop_cursor rnd _ 1 c ch

/-- The translation pass leaves the rotation curves alone. -/
theorem translationPass_rot (rnd : Nat → Nat) (c : Nat) (ch : Channels) :
    (translationPass rnd c ch).1.rotXCurve = ch.rotXCurve ∧
    (translationPass rnd c ch).1.rotYCurve = ch.rotYCurve ∧
    (translationPass rnd c ch).1.rotZCurve = ch.rotZCurve := by
  simp [translationPass, translationLoop_proj]

/-- The translation curves after both passes. -/
theorem dropKeysNode_trans (rnd : Nat → Nat) (c : Nat) (ch : Channels) :
    (dropKeysNode rnd c ch).state.transXCurve =
      ch.transXCurve.map (eraseLoop rnd (translationKeyCount ch - 1) 1 c) ∧
    (dropKeysNode rnd c ch).state.transYCurve =
      ch.transYCurve.map (eraseLoop rnd (translationKeyCount ch - 1) 1 c) ∧
    (dropKeysNode rnd c ch).state.transZCurve =
      ch.transZCurve.map (eraseLoop rnd (translationKeyCount ch - 1) 1 c) := by
  have h := rotationLoop_trans rnd (rotationKeyCount (translationPass rnd c ch).1 - 1) 1
    (translationPass rnd c ch).2 (translationPass rnd c ch).1
  simp only [dropKeysNode, rotationPass]
  rw [h.1, h.2.1, h.2.2]
  simp [translationPass, translationLoop_proj]

/-- The translation pass does not change the loop bound of the rotation pass. -/
theorem rotationKeyCount_translationPass (rnd : Nat → Nat) (c : Nat) (ch : Channels) :
    rotationKeyCount (translationPass rnd c ch).1 = rotationKeyCount ch := by
  simp only [rotationKeyCount, (translationPass_rot rnd c ch).1]

/-- The rotation X curve after both passes, in every outcome. -/
theorem dropKeysNode_rotX (rnd : Nat → Nat) (c : Nat) (ch : Channels) :
    ∃ n, (dropKeysNode rnd c ch).state.rotXCurve =
      ch.rotXCurve.map (eraseLoop rnd n 1 (translationPass rnd c ch).2) := by
  obtain ⟨n, _, hn⟩ := rotationLoop_rotX rnd (rotationKeyCount (translationPass rnd c ch).1 - 1) 1
    (translationPass rnd c ch).2 (translationPass rnd c ch).1
  refine ⟨n, ?_⟩
  simp only [dropKeysNode, rotationPass]
  rw [hn, (translationPass_rot rnd c ch).1]

/-- The rotation X and Z curves after both passes that ran to their end. -/
theorem dropKeysNode_ok (rnd : Nat → Nat) (c : Nat) (ch : Channels)
    (h : (dropKeysNode rnd c ch).faulted = false) :
    (dropKeysNode rnd c ch).state.rotXCurve =
      ch.rotXCurve.map (eraseLoop rnd (rotationKeyCount ch - 1) 1 (translationPass rnd c ch).2) ∧
    (dropKeysNode rnd c ch).state.rotZCurve =
      ch.rotZCurve.map (eraseLoop rnd (rotationKeyCount ch - 1) 1 (translationPass rnd c ch).2) ∧
    (dropKeysNode rnd c ch).cursor =
      (translationPass rnd c ch).2 + (rotationKeyCount ch - 1) := by
  simp only [dropKeysNode, rotationPass] at h ⊢
  obtain ⟨h1, h2⟩ := rotationLoop_ok rnd _ 1 _ _ h
  rw [h1, h2, rotationKeyCount_translationPass]
  simp [(translationPass_rot rnd c ch).1, (translationPass_rot rnd c ch).2.2]

/-- A pass removes the keys of a set of original indices without index 0 and
without two neighbours, the same set for all curves of one length. -/
theorem eraseLoop_survivors (rnd : Nat → Nat) (todo c n : Nat) :
    ∃ removed : Nat → Bool,
      removed 0 = false ∧
      (∀ m, removed m = true → m < n) ∧
      (∀ m, removed m = true → removed (m + 1) = false) ∧
      ∀ keys : Curve, keys.length = n → eraseLoop rnd todo 1 c keys = survivors removed 0 keys := by
  cases n with
  | zero =>
    refine ⟨fun _ => false, rfl, by simp, by simp, ?_⟩
    intro keys hk
    have : keys = [] := List.length_eq_zero.mp hk
    subst this
    rw [eraseLoop_short _ _ _ _ _ (by simp)]
    rfl
  | succ n =>
    obtain ⟨r, hr1, hr2, hr3⟩ := thin_survivors rnd todo c n 1
    have h0 : r 0 = false := by
      cases hq : r 0 with
      | false => rfl
      | true =>
        have := (hr1 _ hq).1
        omega
    refine ⟨r, h0, ?_, hr2, ?_⟩
    · intro m hm
      have := hr1 m hm
      omega
    · intro keys hk
      match keys, hk with
      | k0 :: s, hk =>
        rw [eraseLoop_cons, hr3 s (by simpa using hk)]
        simp [survivors, h0]

/-- A pass leaves at least half of the keys. -/
theorem eraseLoop_length (rnd : Nat → Nat) (todo c : Nat) (keys : Curve) :
    keys.length ≤ 2 * (eraseLoop rnd todo 1 c keys).length := by
  cases keys with
  | nil => simp
  | cons k0 s =>
    rw [eraseLoop_cons]
    have := thin_length rnd todo c s
    simp only [List.length_cons]
    omega

/-- A pass of any number of turns has bounded loss. -/
theorem eraseLoop_boundedLoss (rnd : Nat → Nat) (todo c : Nat) (keys : Curve) :
    BoundedLoss keys (eraseLoop rnd todo 1 c keys) := by
  obtain ⟨r, h0, h1, h2, h3⟩ := eraseLoop_survivors rnd todo c keys.length
  have hlen := eraseLoop_length rnd todo c keys
  exact ⟨⟨r, h0, h1, h2, h3 keys rfl⟩, by omega, by omega⟩

/-- With every draw below `lossRate` a full pass leaves the keys at the even
indices. -/
theorem eraseLoop_all_dropped (rnd : Nat → Nat) (todo c : Nat) (keys : Curve)
    (hlen : keys.length - 1 ≤ todo) (hall : ∀ i, i < todo → rnd (c + i) % 10 < lossRate)
    (m : Nat) : (eraseLoop rnd todo 1 c keys)[m]? = keys[2 * m]? := by
  cases keys with
  | nil =>
    rw [eraseLoop_short _ _ _ _ _ (by simp)]
    simp
  | cons k0 s =>
    rw [eraseLoop_cons]
    cases m with
    | zero => simp
    | succ m =>
      rw [show 2 * (m + 1) = (2 * m + 1) + 1 by omega]
      simp only [List.getElem?_cons_succ]
      exact thin_all_dropped rnd todo c s (by simpa using hlen) hall m

/-- The run of `passEach` on two lists, one after the other. -/
theorem passEach_append (rnd : Nat → Nat) (c : Nat) (a b : List Channels) :
    passEach rnd c (a ++ b) =
      if (passEach rnd c a).faulted then
        ⟨(passEach rnd c a).state ++ b, (passEach rnd c a).cursor, true⟩
      else
        ⟨(passEach rnd c a).state ++ (passEach rnd (passEach rnd c a).cursor b).state,
          (passEach rnd (passEach rnd c a).cursor b).cursor,
          (passEach rnd (passEach rnd c a).cursor b).faulted⟩ := by
  induction a generalizing c with
  | nil => simp [passEach]
  | cons ch rest ih =>
    simp only [List.cons_append, passEach]
    by_cases hf : (dropKeysNode rnd c ch).faulted = true
    · simp [hf]
    · simp only [hf, if_false, Bool.false_eq_true, List.append_eq]
      rw [ih]
      by_cases hg : (passEach rnd (dropKeysNode rnd c ch).cursor rest).faulted = true
      · simp [hg]
      · simp [hg]

mutual
/-- What `dropKeys` makes of a subtree, in every outcome: the curves of its
nodes, read in pre-order, are those `passEach` gives on the pre-order of the
subtree, with the same cursor and the same stop; names, attributes and
parent-child structure are as before. -/
theorem dropKeys_walk (rnd : Nat → Nat) : ∀ (t : FbxNode) (c : Nat),
    (dropKeys rnd c t).state.preorder = (passEach rnd c t.preorder).state ∧
    (dropKeys rnd c t).cursor = (passEach rnd c t.preorder).cursor ∧
    (dropKeys rnd c t).faulted = (passEach rnd c t.preorder).faulted ∧
    (dropKeys rnd c t).state.shape = t.shape
  | .mk name attr ch kids, c => by
    have hk := dropKeysChildren_walk rnd kids (dropKeysNode rnd c ch).cursor
    simp only [dropKeys, FbxNode.preorder, passEach]
    by_cases hf : (dropKeysNode rnd c ch).faulted = true
    · simp [hf, FbxNode.preorder, FbxNode.shape]
    · simp only [hf, if_false, Bool.false_eq_true, FbxNode.preorder, FbxNode.shape]
      exact ⟨by rw [hk.1], hk.2.1, hk.2.2.1, by rw [hk.2.2.2]⟩
/-- The same for the loop over the children. -/
theorem dropKeysChildren_walk (rnd : Nat → Nat) : ∀ (ks : List FbxNode) (c : Nat),
    preorderChildren (dropKeysChildren rnd c ks).state =
      (passEach rnd c (preorderChildren ks)).state ∧
    (dropKeysChildren rnd c ks).cursor = (passEach rnd c (preorderChildren ks)).cursor ∧
    (dropKeysChildren rnd c ks).faulted = (passEach rnd c (preorderChildren ks)).faulted ∧
    shapeChildren (dropKeysChildren rnd c ks).state = shapeChildren ks
  | [], c => by simp [dropKeysChildren, preorderChildren, passEach, shapeChildren]
  | k :: ks, c => by
    have h1 := dropKeys_walk rnd k c
    have h2 := dropKeysChildren_walk rnd ks (dropKeys rnd c k).cursor
    simp only [dropKeysChildren, preorderChildren, passEach_append]
    by_cases hf : (dropKeys rnd c k).faulted = true
    · have hf2 : (passEach rnd c k.preorder).faulted = true := by rw [← h1.2.2.1]; exact hf
      simp only [hf, hf2, if_true, preorderChildren, shapeChildren]
      exact ⟨by rw [h1.1], h1.2.1, trivial, by rw [h1.2.2.2]⟩
    · have hf2 : ¬ (passEach rnd c k.preorder).faulted = true := by rw [← h1.2.2.1]; exact hf
      simp only [hf, hf2, if_false, preorderChildren, shapeChildren, Bool.false_eq_true]
      rw [← h1.2.1]
      exact ⟨by rw [h1.1, h2.1], h2.2.1, h2.2.2.1, by rw [h1.2.2.2, h2.2.2.2]⟩
end

/-- With the flag set and no later failure to listen, every call of `transmit`
only warns. -/
theorem runCalls_serverMode (convert : FbxNode → FbxNode) (rnd : Nat → Nat)
    (self : Transmitter) (hs : self.p_serverMode = true) (later : List Call)
    (h : ∀ call ∈ later, call.listenFails = false) :
    runCalls convert rnd self later =
      (later.filter Call.isTransmit).map (fun _ => [Event.warnServerMode]) := by
  induction later generalizing self with
  | nil => rfl
  | cons call rest ih =>
    have hrest : ∀ call ∈ rest, call.listenFails = false :=
      fun x hx => h x (List.mem_cons_of_mem _ hx)
    cases call with
    | startServer l a =>
      have hl : l = true := by
        have := h (Call.startServer l a) (List.mem_cons_self _ _)
        simpa [Call.listenFails] using this
      subst hl
      simp only [runCalls, List.filter, Call.isTransmit]
      exact ih (startServer true a self) (by cases a <;> rfl) hrest
    | transmit ld sv =>
      simp only [runCalls, List.filter, Call.isTransmit, List.map_cons]
      rw [ih self hs hrest]
      simp [transmit, hs]

/-! ## The X curves of a call -/

/-- The X curves of the node `dropKeys` is called on, with `N >= 2` keys.  The
translation X curve after the call is, in every outcome, the one obtained by
visiting `j = 1, ..., N - 1` in increasing order (`N` fixed before the loop)
and erasing the key at index `j` of the live list exactly when the draw of
that visit is below 9; the pass reads `N - 1` draws.  The same holds for the
rotation X curve of a call that returns. -/
theorem dropKeys_x_curve_is_visit_and_erase (rnd : Nat → Nat) (c : Nat) (t : FbxNode) :
    (∀ keys : Curve, t.curves.transXCurve = some keys → 2 ≤ keys.length →
      (dropKeys rnd c t).state.curves.transXCurve =
        some (visitAndErase (drawAt rnd c) keys) ∧
      (translationPass rnd c t.curves).2 = c + (keys.length - 1)) ∧
    (∀ keys : Curve, t.curves.rotXCurve = some keys → 2 ≤ keys.length →
      (dropKeys rnd c t).faulted = false →
      (dropKeys rnd c t).state.curves.rotXCurve =
        some (visitAndErase (drawAt rnd (translationPass rnd c t.curves).2) keys) ∧
      (dropKeysNode rnd c t.curves).cursor =
        (translationPass rnd c t.curves).2 + (keys.length - 1)) := by
  constructor
  · intro keys hk hN
    have hcount := translationKeyCount_of_keys t.curves keys hk hN
    constructor
    · rw [dropKeys_curves, (dropKeysNode_trans rnd c t.curves).1, hk, hcount,
        Option.map_some', eraseLoop_eq_visitAndErase]
    · rw [translationPass_cursor, hcount]
  · intro keys hk _ hok
    have hcount := rotationKeyCount_of_keys t.curves keys hk
    obtain ⟨h1, _, h3⟩ := dropKeysNode_ok rnd c t.curves (dropKeys_node_ok rnd c t hok)
    constructor
    · rw [dropKeys_curves, h1, hk, hcount, Option.map_some', eraseLoop_eq_visitAndErase]
    · rw [h3, hcount]

/-- The loss on the X curves of the node `dropKeys` is called on, with
`N >= 2` keys.  In every outcome of the call the keys gone are those of a set
of original indices without index 0 and without two neighbours, they are at
most `N / 2` rounded down, and at least `N / 2` rounded up are left.  When
every draw of the pass is below 9, the translation X keys left are those at
the even original indices, and so are the rotation X keys left by a call that
returns. -/
theorem dropKeys_x_curve_bounded_loss (rnd : Nat → Nat) (c : Nat) (t : FbxNode) :
    (∀ keys : Curve, t.curves.transXCurve = some keys → 2 ≤ keys.length →
      ∃ keys1 : Curve, (dropKeys rnd c t).state.curves.transXCurve = some keys1 ∧
        BoundedLoss keys keys1 ∧
        ((∀ j, 1 ≤ j → j < keys.length → drawAt rnd c j < lossRate) →
          ∀ m, keys1[m]? = keys[2 * m]?)) ∧
    (∀ keys : Curve, t.curves.rotXCurve = some keys → 2 ≤ keys.length →
      ∃ keys1 : Curve, (dropKeys rnd c t).state.curves.rotXCurve = some keys1 ∧
        BoundedLoss keys keys1 ∧
        ((dropKeys rnd c t).faulted = false →
          (∀ j, 1 ≤ j → j < keys.length →
            drawAt rnd (translationPass rnd c t.curves).2 j < lossRate) →
          ∀ m, keys1[m]? = keys[2 * m]?)) := by
  constructor
  · intro keys hk hN
    have hcount := translationKeyCount_of_keys t.curves keys hk hN
    refine ⟨eraseLoop rnd (keys.length - 1) 1 c keys, ?_, eraseLoop_boundedLoss _ _ _ _, ?_⟩
    · rw [dropKeys_curves, (dropKeysNode_trans rnd c t.curves).1, hk, hcount, Option.map_some']
    · intro hall m
      apply eraseLoop_all_dropped rnd _ c keys (Nat.le_refl _)
      intro i hi
      have := hall (i + 1) (by omega) (by omega)
      simpa [drawAt] using this
  · intro keys hk hN
    obtain ⟨n, hn⟩ := dropKeysNode_rotX rnd c t.curves
    refine ⟨eraseLoop rnd n 1 (translationPass rnd c t.curves).2 keys, ?_,
      eraseLoop_boundedLoss _ _ _ _, ?_⟩
    · rw [dropKeys_curves, hn, hk, Option.map_some']
    · intro hok hall m
      have hcount := rotationKeyCount_of_keys t.curves keys hk
      obtain ⟨h1, _, _⟩ := dropKeysNode_ok rnd c t.curves (dropKeys_node_ok rnd c t hok)
      have heq : eraseLoop rnd n 1 (translationPass rnd c t.curves).2 keys =
          eraseLoop rnd (keys.length - 1) 1 (translationPass rnd c t.curves).2 keys := by
        have := hn.symm.trans h1
        rw [hk, hcount] at this
        simpa using this
      rw [heq]
      apply eraseLoop_all_dropped rnd _ _ keys (Nat.le_refl _)
      intro i hi
      have := hall (i + 1) (by omega) (by omega)
      simpa [drawAt] using this

/-! ## The claims -/

/-- C1, at the failing input: a node with a translation Y curve, rotation X
and Z curves of five keys and no rotation Y curve, every draw being 0.  The
claimed curve is the one with the keys of times 0, 2, 4, after four draws.
The rotation loop removes the key at index 1 at its first turn and stops at
line 328, after one draw, with the keys of times 0, 2, 3, 4 on the rotation X
curve.  When the node has a rotation Y curve as well, the call returns with
the claimed curve after four draws. -/
theorem rotation_x_loop_cut_short :
    visitAndErase (drawAt lowDraws 0) (ramp 5) = [keyAt 0, keyAt 2, keyAt 4] ∧
    (dropKeys lowDraws 0 (leaf (stopCurves 5 none))).faulted = true ∧
    (dropKeys lowDraws 0 (leaf (stopCurves 5 none))).cursor = 1 ∧
    (dropKeys lowDraws 0 (leaf (stopCurves 5 none))).state.curves.rotXCurve =
      some [keyAt 0, keyAt 2, keyAt 3, keyAt 4] ∧
    (dropKeys lowDraws 0 (leaf (stopCurves 5 none))).state.curves.rotXCurve ≠
      some (visitAndErase (drawAt lowDraws 0) (ramp 5)) ∧
    (dropKeys lowDraws 0 (leaf (stopCurves 5 (some (ramp 5))))).faulted = false ∧
    (dropKeys lowDraws 0 (leaf (stopCurves 5 (some (ramp 5))))).cursor = 4 ∧
    (dropKeys lowDraws 0 (leaf (stopCurves 5 (some (ramp 5))))).state.curves.rotXCurve =
      some (visitAndErase (drawAt lowDraws 0) (ramp 5)) := by
  decide

/-- C2: for each of the six channels of the node `dropKeys` is called on that
has `N >= 2` keys, in every outcome of the call (so whenever it returns
normally) the channel still has a curve, its key count is at most `N`, and its
key at index 0 is the key that was at index 0 before. -/
theorem dropKeys_count_le_and_first_key_kept (rnd : Nat → Nat) (c : Nat) (t : FbxNode)
    (s : Chan) (keys : Curve) (h : t.curves.get s = some keys) (hN : 2 ≤ keys.length) :
    ∃ keys1 : Curve, (dropKeys rnd c t).state.curves.get s = some keys1 ∧
      keys1.length ≤ keys.length ∧ keys1[0]? = keys[0]? ∧ keys1[0]? ≠ none := by
  have hrel := dropKeys_rel stepClosed_head rnd c t s
  rw [h] at hrel
  cases hres : (dropKeys rnd c t).state.curves.get s with
  | none => simp [hres, CurveRel] at hrel
  | some keys1 =>
    rw [hres] at hrel
    refine ⟨keys1, rfl, hrel.1, hrel.2, ?_⟩
    rw [hrel.2]
    cases keys with
    | nil => simp at hN
    | cons k0 ks => simp

/-- Witness of C2 on the rotation Y channel of a node with four keys on it. -/
theorem dropKeys_count_le_and_first_key_kept_witness :
    fullNode.curves.get Chan.rotY = some (ramp 4) ∧ 2 ≤ (ramp 4).length ∧
    ∃ keys1 : Curve, (dropKeys lowDraws 0 fullNode).state.curves.get Chan.rotY = some keys1 ∧
      keys1.length ≤ (ramp 4).length ∧ keys1[0]? = (ramp 4)[0]? ∧ keys1[0]? ≠ none :=
  ⟨rfl, by decide,
    dropKeys_count_le_and_first_key_kept lowDraws 0 fullNode Chan.rotY (ramp 4) rfl (by decide)⟩

/-- C4, at the failing input: two nodes with the same rotation X, Y and Z
curves (two keys each), one with a translation Y curve and one without.  Fed
the same draws from the same cursor, the rotation pass returns on both, takes
the key at index 1 from the rotation Y curve of the first and leaves the
rotation Y curve of the second as it was. -/
theorem rotation_y_follows_translation_y :
    (rotCurves (some (ramp 1))).rotXCurve = (rotCurves none).rotXCurve ∧
    (rotCurves (some (ramp 1))).rotYCurve = (rotCurves none).rotYCurve ∧
    (rotCurves (some (ramp 1))).rotZCurve = (rotCurves none).rotZCurve ∧
    (rotationPass lowDraws 0 (rotCurves (some (ramp 1)))).faulted = false ∧
    (rotationPass lowDraws 0 (rotCurves none)).faulted = false ∧
    (rotationPass lowDraws 0 (rotCurves (some (ramp 1)))).state.rotYCurve = some [keyAt 0] ∧
    (rotationPass lowDraws 0 (rotCurves none)).state.rotYCurve = some [keyAt 0, keyAt 1] ∧
    (dropKeys lowDraws 0 (FbxNode.mk "Bip02" none (rotCurves (some (ramp 1))) [])).state.curves.rotYCurve
      ≠ (dropKeys lowDraws 0 (FbxNode.mk "Bip02" none (rotCurves none) [])).state.curves.rotYCurve := by
  decide

/-- C5: a channel of the node `dropKeys` is called on that does not have two
keys (no curve, a curve without key, a curve of one key) is, in every outcome
of the call, what it was before, whatever the other channels of the node
hold. -/
theorem dropKeys_static_channel_unchanged (rnd : Nat → Nat) (c : Nat) (t : FbxNode)
    (s : Chan) (h : ∀ keys : Curve, t.curves.get s = some keys → keys.length < 2) :
    (dropKeys rnd c t).state.curves.get s = t.curves.get s := by
  have hrel := dropKeys_rel stepClosed_static rnd c t s
  cases hbefore : t.curves.get s with
  | none =>
    rw [hbefore] at hrel
    cases hres : (dropKeys rnd c t).state.curves.get s with
    | none => rfl
    | some keys1 => simp [hres, CurveRel] at hrel
  | some keys =>
    rw [hbefore] at hrel
    cases hres : (dropKeys rnd c t).state.curves.get s with
    | none => simp [hres, CurveRel] at hrel
    | some keys1 =>
      rw [hres] at hrel
      simp only [CurveRel] at hrel
      rw [hrel (h keys hbefore)]

/-- Witness of C5 on the translation Z channel (one key) of a node whose
other channels have two keys and more. -/
theorem dropKeys_static_channel_unchanged_witness :
    (∀ keys : Curve, fullNode.curves.get Chan.transZ = some keys → keys.length < 2) ∧
    (dropKeys lowDraws 0 fullNode).state.curves.get Chan.transZ =
      fullNode.curves.get Chan.transZ :=
  ⟨fun keys hk => by
      have : keys = ramp 1 := (Option.some.inj hk).symm
      subst this
      decide,
    dropKeys_static_channel_unchanged lowDraws 0 fullNode Chan.transZ (fun keys hk => by
      have : keys = ramp 1 := (Option.some.inj hk).symm
      subst this
      decide)⟩

/-- C6, at the failing input: a root with a translation Y curve, a rotation X
curve of two keys and no rotation Y curve, and one child with rotation curves
of two keys.  With a first draw below 9 the call stops at line 328 in the
rotation pass of the root, after one draw; the child is never visited and
keeps its curves, which the loss pass run from that cursor changes.  When the
root has a rotation Y curve as well, the call returns and the child has the
curves that pass gives. -/
theorem dropKeys_stops_before_children :
    (dropKeys lowDraws 0 (pairTree noRotYCurves)).faulted = true ∧
    (dropKeys lowDraws 0 (pairTree noRotYCurves)).cursor = 1 ∧
    (dropKeys lowDraws 0 (pairTree noRotYCurves)).state.children.map FbxNode.curves =
      [rotCurves none] ∧
    (dropKeysNode lowDraws 1 (rotCurves none)).state ≠ rotCurves none ∧
    (dropKeys lowDraws 0 (pairTree (rotCurves (some (ramp 1))))).faulted = false ∧
    (dropKeys lowDraws 0 (pairTree (rotCurves (some (ramp 1))))).state.children.map
      FbxNode.curves = [(dropKeysNode lowDraws 1 (rotCurves none)).state] := by
  decide

/-- C7: every channel of the node `dropKeys` is called on that has a curve
still has one in every outcome of the call, and its keys are then a
subsequence of its keys before: no key is added, moved or changed.  Keys that
were strictly increasing in time are so afterwards. -/
theorem dropKeys_keeps_time_order (rnd : Nat → Nat) (c : Nat) (t : FbxNode)
    (s : Chan) (keys : Curve) (h : t.curves.get s = some keys) :
    ∃ keys1 : Curve, (dropKeys rnd c t).state.curves.get s = some keys1 ∧
      keys1.Sublist keys ∧ (TimeOrdered keys → TimeOrdered keys1) := by
  have hrel := dropKeys_rel stepClosed_sublist rnd c t s
  rw [h] at hrel
  cases hres : (dropKeys rnd c t).state.curves.get s with
  | none => simp [hres, CurveRel] at hrel
  | some keys1 =>
    rw [hres] at hrel
    exact ⟨keys1, rfl, hrel, fun hord => List.Pairwise.sublist hrel hord⟩

/-- Witness of C7 on the translation X channel of a node with five keys on
it. -/
theorem dropKeys_keeps_time_order_witness :
    fullNode.curves.get Chan.transX = some (ramp 5) ∧
    ∃ keys1 : Curve, (dropKeys mixedDraws 0 fullNode).state.curves.get Chan.transX = some keys1 ∧
      keys1.Sublist (ramp 5) ∧ (TimeOrdered (ramp 5) → TimeOrdered keys1) :=
  ⟨rfl, dropKeys_keeps_time_order mixedDraws 0 fullNode Chan.transX (ramp 5) rfl⟩

/-- C8, at the failing input: a loaded scene whose root has a child without
node attribute followed by a skeleton root.  Line 107 calls
`GetAttributeType` through the null attribute of the first child and the run
stops there: the skeleton root after it is not converted or degraded and the
save step is not reached.  With a marker in the place of the bare node the
skeleton root is converted and degraded and the scene is saved. -/
theorem transmit_stops_at_node_without_attribute :
    transmit sameSkeleton lowDraws clientMode (some (sceneWith none)) true =
      [Event.loaded, Event.nullAttribute 0] ∧
    transmit sameSkeleton lowDraws clientMode (some (sceneWith (some EType.eMarker))) true =
      [Event.loaded, Event.converted 1, Event.degraded 1, Event.saved true] := by
  decide

/-- C9, refuted: `startServer` is called and fails to create its listening
socket; the call of `transmit` after it loads the scene, converts and
degrades its skeleton root and saves, whether the flag was clear or set
before, and also when an earlier call of `startServer` had created its
socket. -/
theorem transmit_runs_after_failed_startServer :
    runCalls sameSkeleton lowDraws (transmitterWith false)
      [Call.startServer false false,
        Call.transmit (some (sceneWith (some EType.eMarker))) true] =
      [[Event.loaded, Event.converted 1, Event.degraded 1, Event.saved true]] ∧
    runCalls sameSkeleton lowDraws (transmitterWith true)
      [Call.startServer false false,
        Call.transmit (some (sceneWith (some EType.eMarker))) true] =
      [[Event.loaded, Event.converted 1, Event.degraded 1, Event.saved true]] ∧
    runCalls sameSkeleton lowDraws (transmitterWith false)
      [Call.startServer true true, Call.startServer false false,
        Call.transmit (some (sceneWith (some EType.eMarker))) true] =
      [[Event.loaded, Event.converted 1, Event.degraded 1, Event.saved true]] := by
  decide

/-- C9 as amended: after a call of `startServer` that created its listening
socket, whatever `accept` gave and whatever the flag was before, every later
call of `transmit` only gives the warning and returns, without loading,
converting, degrading or saving, as long as no call of `startServer` in
between fails to create its listening socket.  A call of `startServer` that
fails to create its listening socket leaves `p_serverMode` off, whatever the
flag was before: a call of `transmit` right after it does not give the
warning, it is the run of the pipeline on a transmitter in client mode. -/
theorem server_mode_sticky_after_listen (convert : FbxNode → FbxNode) (rnd : Nat → Nat)
    (self : Transmitter) (clientSocketValid : Bool) (later : List Call) :
    ((∀ call ∈ later, call.listenFails = false) →
      (startServer true clientSocketValid self).p_serverMode = true ∧
      runCalls convert rnd (startServer true clientSocketValid self) later =
        (later.filter Call.isTransmit).map (fun _ => [Event.warnServerMode])) ∧
    (startServer false clientSocketValid self).p_serverMode = false ∧
    (∀ (LoadScene : Option FbxScene) (SaveScene : Bool),
      transmit convert rnd (startServer false clientSocketValid self) LoadScene SaveScene ≠
        [Event.warnServerMode] ∧
      runCalls convert rnd self
        (Call.startServer false clientSocketValid :: Call.transmit LoadScene SaveScene :: later) =
        transmit convert rnd { self with p_serverMode := false } LoadScene SaveScene ::
          runCalls convert rnd { self with p_serverMode := false } later) := by
  refine ⟨fun h => ⟨by cases clientSocketValid <;> rfl,
    runCalls_serverMode convert rnd _ (by cases clientSocketValid <;> rfl) later h⟩, rfl, ?_⟩
  intro ld sv
  refine ⟨?_, rfl⟩
  have hoff : (startServer false clientSocketValid self).p_serverMode = false := rfl
  simp only [transmit, hoff]
  cases ld with
  | none => simp
  | some lScene =>
    simp only [Bool.false_eq_true, if_false]
    split <;> simp

/-- Witness of the amended C9: a listening socket is created and `accept`
fails; of the three later calls the two calls of `transmit` only warn. -/
theorem server_mode_sticky_after_listen_witness :
    (∀ call ∈ [Call.transmit (some (sceneWith (some EType.eMarker))) true,
        Call.startServer true true, Call.transmit none false], call.listenFails = false) ∧
    (startServer true false clientMode).p_serverMode = true ∧
    runCalls sameSkeleton lowDraws (startServer true false clientMode)
      [Call.transmit (some (sceneWith (some EType.eMarker))) true,
        Call.startServer true true, Call.transmit none false] =
      [[Event.warnServerMode], [Event.warnServerMode]] :=
  ⟨by simp [Call.listenFails],
    (server_mode_sticky_after_listen sameSkeleton lowDraws clientMode false
      [Call.transmit (some (sceneWith (some EType.eMarker))) true,
        Call.startServer true true, Call.transmit none false]).1
      (by simp [Call.listenFails])⟩

/-- C10, at the failing input: a node with a translation Y curve, rotation X
and Z curves of six keys and no rotation Y curve, every draw being 0.  The
claimed survivors are the keys at the even original indices, of times 0, 2, 4.
The rotation loop removes the key at index 1 at its first turn and stops at
line 328: the rotation X curve is left with the keys of times 0, 2, 3, 4, 5,
so the key at index 2 is the one of time 3 and the keys of times 3 and 5, at
odd original indices, are still there.  When the node has a rotation Y curve
as well, the call returns with the keys of times 0, 2, 4. -/
theorem rotation_x_survivors_not_even :
    (∀ j, 1 ≤ j → j < (ramp 6).length → drawAt lowDraws 0 j < lossRate) ∧
    (dropKeys lowDraws 0 (leaf (stopCurves 6 none))).faulted = true ∧
    (dropKeys lowDraws 0 (leaf (stopCurves 6 none))).state.curves.rotXCurve =
      some [keyAt 0, keyAt 2, keyAt 3, keyAt 4, keyAt 5] ∧
    [keyAt 0, keyAt 2, keyAt 3, keyAt 4, keyAt 5][2]? ≠ (ramp 6)[2 * 2]? ∧
    (dropKeys lowDraws 0 (leaf (stopCurves 6 (some (ramp 6))))).faulted = false ∧
    (dropKeys lowDraws 0 (leaf (stopCurves 6 (some (ramp 6))))).state.curves.rotXCurve =
      some [keyAt 0, keyAt 2, keyAt 4] :=
  ⟨fun _ _ _ => by simp [drawAt, lowDraws, lossRate], by decide, by decide, by decide,
    by decide, by decide⟩


end FBXTransmitter
